import Mathlib

/-!
Verification of the core logic of `src/main.ts` (cmpm-121-demo-3): a tiled
map game with deterministic cache generation, a memento table persisting
per-cache token state, a transfer engine moving coins between caches and
the player inventory, and session persistence.

The embedding is shallow: JavaScript numbers appearing as grid indices and
serials are `Int`, continuous coordinates and the values of the
deterministic `luck` generator are `ℚ`, a JS `Map<string, _>` is an
insertion-ordered association list with unique keys, and the JSON strings
produced by `JSON.stringify` on coin arrays are modelled character by
character, with `JSON.parse` as an explicit parser for that grammar.
-/

namespace Demo3

/-- Grid cell `(i, j)` (interface `Cell` in `main.ts`). -/
structure Cell where
  i : Int
  j : Int
deriving DecidableEq, Repr

/-- Continuous coordinate (interface `latlng` in `main.ts`); latitude and
longitude are modelled as rationals. -/
structure latlng where
  lat : ℚ
  lng : ℚ
deriving DecidableEq, Repr

/-- A collectible token (interface `Coin` in `main.ts`): the owning cell it
was generated in plus its serial number. -/
structure Coin where
  cell : Cell
  serial : Int
deriving DecidableEq, Repr

/-- A token collection (interface `Cache` in `main.ts`): the cell it sits
on and its ordered coin list.  The `name` field models the `toString`
method: `[i,j].toString()` for ordinary caches, overridden to
`"inventory"` for the player inventory. -/
structure Cache where
  cell : Cell
  coins : List Coin
  name : String
deriving DecidableEq, Repr

/-- Display identity of a coin: (owning cell i, owning cell j, serial). -/
def coinId (c : Coin) : Int × Int × Int :=
  (c.cell.i, c.cell.j, c.serial)

/-! ### JS `Map<string, α>` as an insertion-ordered association list -/

/-- `Map.get`: value at the (unique) matching key, if any. -/
def mget {α : Type} : List (String × α) → String → Option α
  | [], _ => none
  | (k0, v0) :: rest, k => if k0 = k then some v0 else mget rest k

/-- `Map.set`: overwrite the value at an existing key in place, else append
the new entry at the end (JS `Map` keeps insertion order). -/
def mset {α : Type} : List (String × α) → String → α → List (String × α)
  | [], k, v => [(k, v)]
  | (k0, v0) :: rest, k, v =>
    if k0 = k then (k0, v) :: rest else (k0, v0) :: mset rest k v

/-- `Map.has`. -/
def mhas {α : Type} (m : List (String × α)) (k : String) : Bool :=
  (mget m k).isSome

/-! ### JS integer-number-to-string (`Number.prototype.toString` on ints) -/

/-- The decimal digit character for `d < 10`. -/
def digitChar (d : Nat) : Char := Char.ofNat (48 + d)

/-- Decimal digits of `n`, most significant first; `fuel` bounds the
recursion (any `fuel > n` gives the true digit string). -/
def natToStrAux : Nat → Nat → List Char
  | 0, _ => []
  | fuel + 1, n =>
    if n < 10 then [digitChar n]
    else natToStrAux fuel (n / 10) ++ [digitChar (n % 10)]

/-- Decimal digit string of a natural number, e.g. `0 ↦ "0"`, `25 ↦ "25"`. -/
def natChars (n : Nat) : List Char := natToStrAux (n + 1) n

/-- Decimal string of an integer, with a leading minus sign when negative —
exactly what JS `Number.prototype.toString` prints for integer values. -/
def intChars (n : Int) : List Char :=
  if n < 0 then Char.ofNat 45 :: natChars n.natAbs else natChars n.toNat

/-- The canonical string key of a cell, `[i, j].toString()` in JS:
decimal `i`, a comma, decimal `j`. -/
def cellKeyChars (i j : Int) : List Char :=
  intChars i ++ Char.ofNat 44 :: intChars j

/-- `[i, j].toString()` as a `String` — the identity key used for the
board's cell table, the `luck` seed, and the memento table. -/
def cellKey (i j : Int) : String := String.mk (cellKeyChars i j)

/-! ### Parsing (the fragment of `JSON.parse` these mementos exercise) -/

/-- Consume a maximal run of decimal digits, folding them onto `acc`. -/
def parseNatFrom : Nat → List Char → Nat × List Char
  | acc, [] => (acc, [])
  | acc, c :: cs =>
    if c.isDigit then parseNatFrom (acc * 10 + (c.toNat - 48)) cs
    else (acc, c :: cs)

/-- Parse an optionally-negated decimal integer literal. -/
def parseInt (l : List Char) : Option (Int × List Char) :=
  match l with
  | [] => none
  | c :: cs =>
    if c = Char.ofNat 45 then
      match cs with
      | [] => none
      | d :: _ =>
        if d.isDigit then
          let r := parseNatFrom 0 cs
          some (-(r.1 : Int), r.2)
        else none
    else if c.isDigit then
      let r := parseNatFrom 0 l
      some ((r.1 : Int), r.2)
    else none

/-- Match an expected literal character sequence, returning the remainder. -/
def expectChars : List Char → List Char → Option (List Char)
  | [], l => some l
  | _ :: _, [] => none
  | e :: es, c :: cs => if c = e then expectChars es cs else none

/-- Literal fragment of a stringified coin before the `i` field. -/
def litCoinA : List Char := ("\x7b\"cell\":\x7b\"i\":").data

/-- Literal fragment between the `i` and `j` fields. -/
def litCoinB : List Char := (",\"j\":").data

/-- Literal fragment between the `j` and `serial` fields. -/
def litCoinC : List Char := ("\x7d,\"serial\":").data

/-- Literal fragment closing a stringified coin. -/
def litCoinD : List Char := ("\x7d").data

/-- `JSON.stringify` of one coin `{cell: {i, j}, serial}` (object keys
appear in insertion order, which JSON.stringify preserves). -/
def coinChars (c : Coin) : List Char :=
  litCoinA ++ intChars c.cell.i ++ litCoinB ++ intChars c.cell.j ++
    litCoinC ++ intChars c.serial ++ litCoinD

/-- Comma-joined stringified coins (the interior of the JSON array). -/
def coinsChars : List Coin → List Char
  | [] => []
  | [c] => coinChars c
  | c :: c2 :: rest => coinChars c ++ Char.ofNat 44 :: coinsChars (c2 :: rest)

/-- `toMomento` of `main.ts`: `JSON.stringify(this.coins)` — the coin list
inside square brackets. -/
def toMomento (c : Cache) : String :=
  String.mk (Char.ofNat 91 :: (coinsChars c.coins ++ [Char.ofNat 93]))

/-- Parse one stringified coin. -/
def parseCoin (l : List Char) : Option (Coin × List Char) :=
  match expectChars litCoinA l with
  | none => none
  | some l1 =>
    match parseInt l1 with
    | none => none
    | some (i, l2) =>
      match expectChars litCoinB l2 with
      | none => none
      | some l3 =>
        match parseInt l3 with
        | none => none
        | some (j, l4) =>
          match expectChars litCoinC l4 with
          | none => none
          | some l5 =>
            match parseInt l5 with
            | none => none
            | some (s, l6) =>
              match expectChars litCoinD l6 with
              | none => none
              | some l7 => some (⟨⟨i, j⟩, s⟩, l7)

/-- Parse a comma-separated nonempty sequence of coins; `fuel` bounds the
recursion (the input length always suffices). -/
def parseCoinListAux : Nat → List Char → Option (List Coin × List Char)
  | 0, _ => none
  | fuel + 1, l =>
    match parseCoin l with
    | none => none
    | some (c, rest) =>
      match rest with
      | r :: rest2 =>
        if r = Char.ofNat 44 then
          match parseCoinListAux fuel rest2 with
          | none => none
          | some (cs, rest3) => some (c :: cs, rest3)
        else some ([c], r :: rest2)
      | [] => some ([c], [])

/-- `JSON.parse` restricted to the grammar `toMomento` emits: a JSON array
of coin objects.  Inputs outside the grammar yield `none` (where
`JSON.parse` would throw). -/
def parseCoinsChars (l : List Char) : Option (List Coin) :=
  match l with
  | [] => none
  | c :: cs =>
    if c = Char.ofNat 91 then
      if cs = [Char.ofNat 93] then some []
      else
        match parseCoinListAux cs.length cs with
        | none => none
        | some (coins, rest) =>
          if rest = [Char.ofNat 93] then some coins else none
    else none

/-- `fromMomento` of `main.ts`: `this.coins = JSON.parse(momento)` — on a
parse failure `JSON.parse` throws, modelled as `none`. -/
def fromMomento (c : Cache) (m : String) : Option Cache :=
  (parseCoinsChars m.data).map (fun coins => { c with coins := coins })

/-! ### Game constants of `main.ts` (floats modelled as rationals) -/

/-- Tile width `TILE_DEGREES = 1e-4`. -/
def TILE_DEGREES : ℚ := 1 / 10000

/-- Visibility radius `NEIGHBORHOOD_SIZE = 8`. -/
def NEIGHBORHOOD_SIZE : Int := 8

/-- Spawn threshold `CACHE_SPAWN_PROBABILITY = 0.1`. -/
def CACHE_SPAWN_PROBABILITY : ℚ := 1 / 10

/-- Trail segmentation threshold `HISTORY_UPDATE_DISTANCE = 20`. -/
def HISTORY_UPDATE_DISTANCE : ℚ := 20

/-! ### Cache construction and the transfer engine -/

/-- `createCache(i, j, num_coins)` of `main.ts`: a cache at cell `(i, j)`
whose coins carry serials `0 .. num_coins - 1` in order (the JS `for` loop
runs zero times when `num_coins ≤ 0`); its `toString` is
`[i, j].toString()`. -/
def createCache (i j : Int) (num_coins : Int) : Cache :=
  { cell := ⟨i, j⟩
    coins := (List.range num_coins.toNat).map (fun (k : Nat) => ⟨⟨i, j⟩, (k : Int)⟩)
    name := cellKey i j }

/-- The player inventory of `main.ts`: `createCache(0, 0, 0)` with its
`toString` overridden to return `"inventory"`. -/
def inventory0 : Cache := { createCache 0 0 0 with name := "inventory" }

/-- `transfer(a, b, coin)` of `main.ts` together with the memento table it
updates: if `coin` is absent from `a.coins` (`indexOf < 0`) nothing
happens; otherwise the first occurrence of `coin` is spliced out of `a`,
`coin` is pushed onto `b`, and both caches' post-transfer mementos are
stored under their `toString` keys. -/
def transfer (a b : Cache) (coin : Coin) (momentos : List (String × String)) :
    Cache × Cache × List (String × String) :=
  if coin ∈ a.coins then
    let a2 : Cache := { a with coins := a.coins.erase coin }
    let b2 : Cache := { b with coins := b.coins ++ [coin] }
    (a2, b2, mset (mset momentos a2.name (toMomento a2)) b2.name (toMomento b2))
  else (a, b, momentos)

/-! ### The board -/

/-- Interface `Board` of `main.ts`: tile geometry plus the canonical cell
table `known_cells`. -/
structure Board where
  tile_width : ℚ
  tile_visible_radius : Int
  known_cells : List (String × Cell)
deriving DecidableEq, Repr

/-- `createBoard()` of `main.ts`. -/
def createBoard : Board :=
  { tile_width := TILE_DEGREES
    tile_visible_radius := NEIGHBORHOOD_SIZE
    known_cells := [] }

/-- `board.getCell(i, j)`: insert `{i, j}` under key `[i,j].toString()`
when absent, then return the stored cell (the trailing `!` assertion is
modelled by `Option.getD`; the key is always present at that point). -/
def getCell (b : Board) (i j : Int) : Board × Cell :=
  let key := cellKey i j
  let b2 := if mhas b.known_cells key then b
    else { b with known_cells := mset b.known_cells key ⟨i, j⟩ }
  (b2, (mget b2.known_cells key).getD ⟨i, j⟩)

/-- `board.getCellFromPoint(point)`: floor-divide each coordinate by the
tile width (`Math.floor` on a rational is `Int.floor`, flooring toward
negative infinity) and canonicalize through `getCell`. -/
def getCellFromPoint (b : Board) (p : latlng) : Board × Cell :=
  let i := ⌊p.lat / b.tile_width⌋
  let j := ⌊p.lng / b.tile_width⌋
  getCell b i j

/-- Well-formedness of the cell table: every entry is stored under the
canonical key of its own coordinates.  `createBoard`'s empty table has it,
and `getCell` only ever inserts entries of this shape. -/
def BoardWF (b : Board) : Prop :=
  ∀ kv ∈ b.known_cells, kv.1 = cellKey kv.2.i kv.2.j

/-! ### Cache generation (`showNearbyCaches` per-cell decision) -/

/-- The per-cell branch of `showNearbyCaches` in `main.ts`: draw
`chance = luck([i,j].toString())`; spawn a cache iff
`chance < CACHE_SPAWN_PROBABILITY`; when no memento is stored the fresh
cache gets `Math.floor(chance * 30) + 1` coins, otherwise the cache is
rebuilt from the stored memento.  The deterministic generator `luck`
(from `luck.ts`, not under `src/`) is passed as a function argument;
per its spec contract it is a pure map from string keys into `[0, 1)`. -/
def cacheAtCell (luck : String → ℚ) (momentos : List (String × String))
    (i j : Int) : Option Cache :=
  let key := cellKey i j
  let chance := luck key
  if chance < CACHE_SPAWN_PROBABILITY then
    match mget momentos key with
    | none => some (createCache i j (⌊chance * 30⌋ + 1))
    | some momento => fromMomento (createCache i j 0) momento
  else none

/-! ### Movement trail -/

/-- `updateLocationHistory()` of `main.ts`, with the current position and
the map service's distance function passed explicitly: an empty trail
gets a first single-point polyline; otherwise the position joins the last
polyline when its distance to the last recorded position is strictly
below `HISTORY_UPDATE_DISTANCE`, else a new single-point polyline is
pushed.  The distance function models the external
`mapService.calculateDistance` (leaflet `distanceTo`). -/
def updateLocationHistory (dist : latlng → latlng → ℚ) (origin : latlng)
    (locHistory : List (List latlng)) : List (List latlng) :=
  if locHistory.length = 0 then locHistory ++ [[origin]]
  else
    let lastPos := locHistory.getLastD []
    if dist origin (lastPos.getLastD ⟨0, 0⟩) < HISTORY_UPDATE_DISTANCE then
      locHistory.dropLast ++ [lastPos ++ [origin]]
    else locHistory ++ [[origin]]

/-! ### Session persistence -/

/-- The mutable module state `loadData` reads and writes: the memento
table, the inventory cache, the player position and the trail. -/
structure Session where
  momentos : List (String × String)
  inventory : Cache
  origin : latlng
  locHistory : List (List latlng)
deriving DecidableEq, Repr

/-- The three `localStorage` slots used by `saveData`/`loadData`.  Each
slot holds the structured payload; the outer `JSON.stringify`/`JSON.parse`
transport of these payloads is modelled as the identity, while the
memento strings stored inside `data` remain genuine serialized strings. -/
structure Storage where
  data : Option (List (String × String))
  loc : Option (ℚ × ℚ)
  hist : Option (List (List latlng))
deriving DecidableEq, Repr

/-- `OAKES_CLASSROOM`, the default starting position. -/
def OAKES_CLASSROOM : latlng :=
  ⟨3698949379578401 / 100000000000000, -12206277128548504 / 100000000000000⟩

/-- The module state at startup, before `loadData` runs: empty memento
table, empty inventory, default origin, empty trail. -/
def freshSession : Session :=
  { momentos := [], inventory := inventory0
    origin := OAKES_CLASSROOM, locHistory := [] }

/-- `saveData()` of `main.ts`: writes the memento-table entries (in
insertion order), the position pair and the trail to the three slots. -/
def saveData (s : Session) : Storage :=
  { data := some s.momentos
    loc := some (s.origin.lat, s.origin.lng)
    hist := some s.locHistory }

/-- `loadData()` of `main.ts`.  Note the early `return` when the `data`
slot is absent: neither `loc` nor `hist` is read in that case.  When
`data` is present its entries are merged into the memento table, the
inventory is rebuilt from the `"inventory"` memento when stored (a
`JSON.parse` throw is modelled as `none`), and then the `loc` and `hist`
slots are restored independently when present. -/
def loadData (st : Storage) (s : Session) : Option Session :=
  match st.data with
  | none => some s
  | some data_array =>
    let momentos := data_array.foldl (fun m kv => mset m kv.1 kv.2) s.momentos
    let s1 : Session := { s with momentos := momentos }
    let inv? : Option Session :=
      match mget momentos "inventory" with
      | none => some s1
      | some invStr =>
        match fromMomento s1.inventory invStr with
        | none => none
        | some inv2 => some { s1 with inventory := inv2 }
    match inv? with
    | none => none
    | some s2 =>
      let s3 : Session :=
        match st.loc with
        | none => s2
        | some pq => { s2 with origin := ⟨pq.1, pq.2⟩ }
      let s4 : Session :=
        match st.hist with
        | none => s3
        | some temp => { s3 with locHistory := s3.locHistory ++ temp }
      some s4

/-- Modelled from the spec: the deterministic `luck` generator of
`luck.ts` (not under `src/`) pinned to the end-to-end scenario of the
spec — a pure map from keys into `[0, 1)` with `luck("0,0") = 0.05`;
other keys (never examined by the scenario) get `1/2`. -/
def luckScenario : String → ℚ :=
  fun k => if k = cellKey 0 0 then 1 / 20 else 1 / 2

/-- The session state of the end-to-end scenario right after the player
collects coin serial 0 from the freshly generated cache at (0,0): both
post-transfer endpoints and the memento table produced by `transfer`. -/
def scenarioSession : Session :=
  { momentos := (transfer (createCache 0 0 2) inventory0 ⟨⟨0, 0⟩, 0⟩ []).2.2
    inventory := (transfer (createCache 0 0 2) inventory0 ⟨⟨0, 0⟩, 0⟩ []).2.1
    origin := OAKES_CLASSROOM
    locHistory := [] }

/-! ## Map lemmas -/

theorem mget_mset_self {α : Type} (m : List (String × α)) (k : String) (v : α) :
    mget (mset m k v) k = some v := by
  induction m with
  | nil => simp [mget, mset]
  | cons kv rest ih =>
    obtain ⟨k0, v0⟩ := kv
    by_cases h : k0 = k
    · simp [mget, mset, h]
    · simp [mget, mset, h, ih]

theorem mget_mset_ne {α : Type} (m : List (String × α)) (k k2 : String) (v : α)
    (h : k ≠ k2) : mget (mset m k v) k2 = mget m k2 := by
  induction m with
  | nil => simp [mget, mset, h]
  | cons kv rest ih =>
    obtain ⟨k0, v0⟩ := kv
    by_cases h0 : k0 = k
    · subst h0
      simp [mget, mset, h]
    · simp [mget, mset, h0, ih]

theorem mget_mem {α : Type} (m : List (String × α)) (k : String) (v : α)
    (h : mget m k = some v) : (k, v) ∈ m := by
  induction m with
  | nil => simp [mget] at h
  | cons kv rest ih =>
    obtain ⟨k0, v0⟩ := kv
    by_cases h0 : k0 = k
    · subst h0
      simp [mget] at h
      subst h
      exact List.mem_cons_self _ _
    · simp [mget, h0] at h
      exact List.mem_cons_of_mem _ (ih h)

/-! ## Decimal digit lemmas -/

theorem digitChar_isDigit (n : Nat) (h : n < 10) : (digitChar n).isDigit = true := by
  interval_cases n <;> decide

theorem digitChar_toNat (n : Nat) (h : n < 10) : (digitChar n).toNat - 48 = n := by
  interval_cases n <;> decide

theorem isDigit_ne_minus (c : Char) (h : c.isDigit = true) : ¬(c = Char.ofNat 45) := by
  intro he
  subst he
  exact absurd h (by decide)

theorem natToStrAux_fuel : ∀ f1 f2 n : Nat, n < f1 → n < f2 →
    natToStrAux f1 n = natToStrAux f2 n := by
  intro f1
  induction f1 with
  | zero => omega
  | succ g ih =>
    intro f2 n h1 h2
    cases f2 with
    | zero => omega
    | succ g2 =>
      by_cases h10 : n < 10
      · simp [natToStrAux, h10]
      · have hn : 0 < n := by omega
        have hdiv : n / 10 < n := Nat.div_lt_self hn (by omega)
        simp only [natToStrAux, if_neg h10]
        rw [ih g2 (n / 10) (by omega) (by omega)]

theorem natToStrAux_digits : ∀ fuel n : Nat, n < fuel →
    natToStrAux fuel n ≠ [] ∧ ∀ c ∈ natToStrAux fuel n, c.isDigit = true := by
  intro fuel
  induction fuel with
  | zero => omega
  | succ g ih =>
    intro n h
    by_cases h10 : n < 10
    · simp only [natToStrAux, if_pos h10]
      exact ⟨by simp, by simpa using digitChar_isDigit n h10⟩
    · have hn : 0 < n := by omega
      have hdiv : n / 10 < n := Nat.div_lt_self hn (by omega)
      have ihd := ih (n / 10) (by omega)
      simp only [natToStrAux, if_neg h10]
      refine ⟨by simp, ?_⟩
      intro c hc
      rcases List.mem_append.mp hc with hmem | hmem
      · exact ihd.2 c hmem
      · rw [List.mem_singleton.mp hmem]
        exact digitChar_isDigit _ (Nat.mod_lt _ (by omega))

theorem parseNatFrom_natToStrAux : ∀ fuel n acc : Nat, ∀ rest : List Char, n < fuel →
    parseNatFrom acc (natToStrAux fuel n ++ rest) =
      parseNatFrom (acc * 10 ^ (natToStrAux fuel n).length + n) rest := by
  intro fuel
  induction fuel with
  | zero => omega
  | succ g ih =>
    intro n acc rest h
    by_cases h10 : n < 10
    · simp only [natToStrAux, if_pos h10, List.singleton_append, List.length_singleton,
        pow_one]
      rw [parseNatFrom, if_pos (digitChar_isDigit n h10), digitChar_toNat n h10]
    · have hn : 0 < n := by omega
      have hdiv : n / 10 < n := Nat.div_lt_self hn (by omega)
      have hm10 : n % 10 < 10 := Nat.mod_lt _ (by omega)
      simp only [natToStrAux, if_neg h10, List.append_assoc, List.singleton_append]
      rw [ih (n / 10) acc (digitChar (n % 10) :: rest) (by omega)]
      rw [parseNatFrom, if_pos (digitChar_isDigit _ hm10), digitChar_toNat _ hm10]
      have hacc : (acc * 10 ^ (natToStrAux g (n / 10)).length + n / 10) * 10 + n % 10 =
          acc * 10 ^ ((natToStrAux g (n / 10)).length + 1) + n := by
        rw [pow_succ]
        have := Nat.div_add_mod n 10
        ring_nf
        omega
      rw [hacc, List.length_append, List.length_singleton]

theorem parseNatFrom_stop (acc : Nat) (rest : List Char)
    (h : ∀ c, rest.head? = some c → c.isDigit = false) :
    parseNatFrom acc rest = (acc, rest) := by
  cases rest with
  | nil => rfl
  | cons c cs =>
    have hc := h c rfl
    simp [parseNatFrom, hc]

theorem parseNatFrom_natChars (n : Nat) (rest : List Char)
    (h : ∀ c, rest.head? = some c → c.isDigit = false) :
    parseNatFrom 0 (natChars n ++ rest) = (n, rest) := by
  rw [natChars, parseNatFrom_natToStrAux (n + 1) n 0 rest (by omega)]
  simp only [Nat.zero_mul, Nat.zero_add]
  exact parseNatFrom_stop n rest h

theorem natChars_ne_nil (n : Nat) : natChars n ≠ [] :=
  (natToStrAux_digits (n + 1) n (by omega)).1

theorem natChars_digits (n : Nat) : ∀ c ∈ natChars n, c.isDigit = true :=
  (natToStrAux_digits (n + 1) n (by omega)).2

theorem parseInt_intChars (n : Int) (rest : List Char)
    (h : ∀ c, rest.head? = some c → c.isDigit = false) :
    parseInt (intChars n ++ rest) = some (n, rest) := by
  by_cases hneg : n < 0
  · have hd : natChars n.natAbs ≠ [] := natChars_ne_nil _
    obtain ⟨d, ds, hds⟩ := List.exists_cons_of_ne_nil hd
    have hdig : d.isDigit = true := by
      apply natChars_digits n.natAbs
      rw [hds]
      exact List.mem_cons_self _ _
    have hshape : intChars n ++ rest =
        Char.ofNat 45 :: (natChars n.natAbs ++ rest) := by
      simp [intChars, hneg]
    have hcs : natChars n.natAbs ++ rest = d :: (ds ++ rest) := by
      rw [hds]
      rfl
    rw [hshape, hcs]
    simp only [parseInt, if_pos rfl, hdig, if_true]
    rw [← hcs, parseNatFrom_natChars n.natAbs rest h]
    have hn : -((n.natAbs : Nat) : Int) = n := by omega
    rw [hn]
  · have hd : natChars n.toNat ≠ [] := natChars_ne_nil _
    obtain ⟨d, ds, hds⟩ := List.exists_cons_of_ne_nil hd
    have hdig : d.isDigit = true := by
      apply natChars_digits n.toNat
      rw [hds]
      exact List.mem_cons_self _ _
    have hshape : intChars n ++ rest = natChars n.toNat ++ rest := by
      simp [intChars, hneg]
    have hcons : natChars n.toNat ++ rest = d :: (ds ++ rest) := by
      rw [hds]
      rfl
    rw [hshape, hcons]
    simp only [parseInt, if_neg (isDigit_ne_minus d hdig), hdig, if_true]
    rw [← hcons, parseNatFrom_natChars n.toNat rest h]
    have : ((n.toNat : Nat) : Int) = n := by omega
    simp [this]

/-! ## Coin JSON round trip -/

theorem expectChars_append : ∀ lit rest : List Char,
    expectChars lit (lit ++ rest) = some rest := by
  intro lit
  induction lit with
  | nil => intro rest; rfl
  | cons e es ih =>
    intro rest
    simp only [List.cons_append, expectChars, if_pos rfl]
    exact ih rest

theorem litCoinB_head (z : List Char) :
    (litCoinB ++ z).head? = some (Char.ofNat 44) := rfl

theorem litCoinC_head (z : List Char) :
    (litCoinC ++ z).head? = some (Char.ofNat 125) := rfl

theorem litCoinD_head (z : List Char) :
    (litCoinD ++ z).head? = some (Char.ofNat 125) := rfl

theorem litCoinB_no_digit_head (z : List Char) :
    ∀ c, (litCoinB ++ z).head? = some c → c.isDigit = false := by
  intro c hc
  rw [litCoinB_head] at hc
  cases hc
  decide

theorem litCoinC_no_digit_head (z : List Char) :
    ∀ c, (litCoinC ++ z).head? = some c → c.isDigit = false := by
  intro c hc
  rw [litCoinC_head] at hc
  cases hc
  decide

theorem litCoinD_no_digit_head (z : List Char) :
    ∀ c, (litCoinD ++ z).head? = some c → c.isDigit = false := by
  intro c hc
  rw [litCoinD_head] at hc
  cases hc
  decide

theorem parseCoin_append (c : Coin) (rest : List Char) :
    parseCoin (coinChars c ++ rest) = some (c, rest) := by
  simp only [coinChars, List.append_assoc, parseCoin, expectChars_append,
    parseInt_intChars c.cell.i _ (litCoinB_no_digit_head _),
    parseInt_intChars c.cell.j _ (litCoinC_no_digit_head _),
    parseInt_intChars c.serial _ (litCoinD_no_digit_head _)]

theorem coinChars_length_pos (c : Coin) : 1 ≤ (coinChars c).length := by
  have h : litCoinA.length = 13 := by decide
  simp [coinChars, List.length_append, h]
  omega

theorem coinsChars_length : ∀ coins : List Coin,
    coins.length ≤ (coinsChars coins).length := by
  intro coins
  induction coins with
  | nil => simp [coinsChars]
  | cons c rest ih =>
    cases rest with
    | nil =>
      simpa [coinsChars] using coinChars_length_pos c
    | cons c2 rest2 =>
      have hc := coinChars_length_pos c
      simp only [coinsChars, List.length_append, List.length_cons] at *
      omega

theorem parseCoinListAux_spec : ∀ coins : List Coin, coins ≠ [] → ∀ fuel : Nat,
    coins.length ≤ fuel →
    parseCoinListAux fuel (coinsChars coins ++ [Char.ofNat 93]) =
      some (coins, [Char.ofNat 93]) := by
  intro coins
  induction coins with
  | nil => intro h; exact absurd rfl h
  | cons c rest ih =>
    intro _ fuel hfuel
    cases fuel with
    | zero => simp at hfuel
    | succ f =>
      cases rest with
      | nil =>
        simp only [coinsChars]
        rw [parseCoinListAux, parseCoin_append]
        have h93 : ¬(Char.ofNat 93 = Char.ofNat 44) := by decide
        simp [h93]
      | cons c2 rest2 =>
        have hshape : coinsChars (c :: c2 :: rest2) ++ [Char.ofNat 93] =
            coinChars c ++
              (Char.ofNat 44 :: (coinsChars (c2 :: rest2) ++ [Char.ofNat 93])) := by
          simp [coinsChars]
        rw [hshape, parseCoinListAux, parseCoin_append]
        have hrec := ih (by simp) f (by simp only [List.length_cons] at hfuel ⊢; omega)
        simp [hrec]

theorem parse_toMomento (c : Cache) :
    parseCoinsChars (toMomento c).data = some c.coins := by
  cases hcoins : c.coins with
  | nil =>
    simp only [toMomento, hcoins, coinsChars]
    decide
  | cons c0 rest =>
    have h1 : (c0 :: rest).length ≤ (coinsChars (c0 :: rest)).length :=
      coinsChars_length _
    have h2 : 1 ≤ (coinsChars (c0 :: rest)).length := by
      simp only [List.length_cons] at h1
      omega
    simp only [toMomento, hcoins]
    rw [parseCoinsChars]
    simp only [if_pos rfl]
    have hne : ¬(coinsChars (c0 :: rest) ++ [Char.ofNat 93] = [Char.ofNat 93]) := by
      intro he
      have h3 : (coinsChars (c0 :: rest) ++ [Char.ofNat 93]).length = 1 := by
        rw [he]
        rfl
      rw [List.length_append, List.length_singleton] at h3
      omega
    rw [if_neg hne]
    have hfuel : (c0 :: rest).length ≤
        (coinsChars (c0 :: rest) ++ [Char.ofNat 93]).length := by
      rw [List.length_append]
      omega
    rw [parseCoinListAux_spec (c0 :: rest) (by simp) _ hfuel]
    simp

theorem fromMomento_toMomento (c d : Cache) :
    fromMomento d (toMomento c) = some { d with coins := c.coins } := by
  simp [fromMomento, parse_toMomento]

/-! ## Cell key injectivity -/

theorem cellKey_inj {i1 j1 i2 j2 : Int} (h : cellKey i1 j1 = cellKey i2 j2) :
    i1 = i2 ∧ j1 = j2 := by
  have hchars : cellKeyChars i1 j1 = cellKeyChars i2 j2 := congrArg String.data h
  have hhead : ∀ c : Char, (Char.ofNat 44 :: intChars j1).head? = some c →
      c.isDigit = false := by
    intro c hc
    cases hc
    decide
  have hhead2 : ∀ c : Char, (Char.ofNat 44 :: intChars j2).head? = some c →
      c.isDigit = false := by
    intro c hc
    cases hc
    decide
  have e1 : parseInt (cellKeyChars i1 j1) = some (i1, Char.ofNat 44 :: intChars j1) :=
    parseInt_intChars i1 _ hhead
  have e2 : parseInt (cellKeyChars i2 j2) = some (i2, Char.ofNat 44 :: intChars j2) :=
    parseInt_intChars i2 _ hhead2
  rw [hchars, e2] at e1
  have hi : i2 = i1 := (Prod.mk.injEq _ _ _ _).mp (Option.some.inj e1) |>.1
  have htail : Char.ofNat 44 :: intChars j2 = Char.ofNat 44 :: intChars j1 :=
    ((Prod.mk.injEq _ _ _ _).mp (Option.some.inj e1)).2
  have hj2 : intChars j2 = intChars j1 := List.cons.inj htail |>.2
  have e3 : parseInt (intChars j1 ++ []) = some (j1, []) :=
    parseInt_intChars j1 [] (by intro c hc; cases hc)
  have e4 : parseInt (intChars j2 ++ []) = some (j2, []) :=
    parseInt_intChars j2 [] (by intro c hc; cases hc)
  rw [hj2] at e4
  rw [e3] at e4
  have hj : j1 = j2 := ((Prod.mk.injEq _ _ _ _).mp (Option.some.inj e4)).1
  exact ⟨hi.symm, hj⟩

/-! ## Board lemmas -/

theorem getCell_of_wf (b : Board) (i j : Int) (hwf : BoardWF b) :
    (getCell b i j).2 = ⟨i, j⟩ := by
  by_cases h : mhas b.known_cells (cellKey i j)
  · simp only [getCell, h, if_true]
    obtain ⟨c, hc⟩ := Option.isSome_iff_exists.mp h
    rw [hc]
    have hmem := mget_mem _ _ _ hc
    have hkey := hwf _ hmem
    obtain ⟨hi, hj⟩ := cellKey_inj hkey
    cases c
    simp at hi hj ⊢
    exact ⟨hi.symm, hj.symm⟩
  · simp [getCell, h, mget_mset_self]

/-- C8: `getCell` is idempotent and canonicalizing — the first call caches
the cell under the string key of `(i, j)` (and, when the key was absent,
stores exactly the cell `⟨i, j⟩`), and a second call with the same
coordinates returns the identical cached cell without touching the table,
so the board never returns two distinct cells for one coordinate pair. -/
theorem getCell_idempotent (b : Board) (i j : Int) :
    (getCell (getCell b i j).1 i j).1 = (getCell b i j).1 ∧
    (getCell (getCell b i j).1 i j).2 = (getCell b i j).2 ∧
    mget (getCell b i j).1.known_cells (cellKey i j) = some (getCell b i j).2 ∧
    (mhas b.known_cells (cellKey i j) = false → (getCell b i j).2 = ⟨i, j⟩) := by
  by_cases h : mhas b.known_cells (cellKey i j)
  · obtain ⟨c, hc⟩ := Option.isSome_iff_exists.mp h
    simp [getCell, h, hc]
  · have hget : mget (mset b.known_cells (cellKey i j) ⟨i, j⟩) (cellKey i j) =
        some (⟨i, j⟩ : Cell) := mget_mset_self _ _ _
    have h2 : mhas (mset b.known_cells (cellKey i j) ⟨i, j⟩) (cellKey i j) = true := by
      simp [mhas, hget]
    simp [getCell, h, hget, h2]

/-- Witness for C8 at a concrete board and coordinates. -/
theorem getCell_idempotent_witness :
    (getCell (getCell createBoard 2 3).1 2 3).2 = (getCell createBoard 2 3).2 ∧
    (getCell createBoard 2 3).2 = ⟨2, 3⟩ := by
  have h := getCell_idempotent createBoard 2 3
  exact ⟨h.2.1, h.2.2.2 (by decide)⟩

/-- C7: `getCellFromPoint` maps each coordinate to its cell index by
dividing by the fixed tile width `TILE_DEGREES = 1e-4` and flooring toward
negative infinity; a point whose coordinate is exactly `k` times the tile
width lands in the cell with index `k` (the tile whose lower bound equals
that coordinate).  The witness instantiates the negative boundary example
`lat = -0.00005 ↦ cell index -1`. -/
theorem getCellFromPoint_floor (b : Board) (p : latlng) (hwf : BoardWF b)
    (hw : b.tile_width = TILE_DEGREES) :
    (getCellFromPoint b p).2 = ⟨⌊p.lat / TILE_DEGREES⌋, ⌊p.lng / TILE_DEGREES⌋⟩ ∧
    (∀ k : Int, p.lat = (k : ℚ) * TILE_DEGREES → ⌊p.lat / TILE_DEGREES⌋ = k) ∧
    (∀ k : Int, p.lng = (k : ℚ) * TILE_DEGREES → ⌊p.lng / TILE_DEGREES⌋ = k) := by
  have htd : (TILE_DEGREES : ℚ) ≠ 0 := by norm_num [TILE_DEGREES]
  refine ⟨?_, ?_, ?_⟩
  · simp only [getCellFromPoint, hw]
    exact getCell_of_wf b _ _ hwf
  · intro k hk
    rw [hk, mul_div_assoc, div_self htd, mul_one, Int.floor_intCast]
  · intro k hk
    rw [hk, mul_div_assoc, div_self htd, mul_one, Int.floor_intCast]

/-- Witness for C7: the point at latitude `-0.00005` (half a tile below
zero) maps to cell index `-1`, not `0`. -/
theorem getCellFromPoint_floor_witness :
    (getCellFromPoint createBoard ⟨-1 / 20000, 0⟩).2 = ⟨-1, 0⟩ := by
  have h := getCellFromPoint_floor createBoard ⟨-1 / 20000, 0⟩
    (by intro kv hkv; simp [createBoard] at hkv) rfl
  refine h.1.trans ?_
  have hlat : ((-1 : ℚ) / 20000) / TILE_DEGREES = -1 / 2 := by
    norm_num [TILE_DEGREES]
  have hlng : ((0 : ℚ)) / TILE_DEGREES = 0 := by
    norm_num [TILE_DEGREES]
  have hf1 : ⌊(-1 / 2 : ℚ)⌋ = -1 := by
    rw [Int.floor_eq_iff]
    norm_num
  have hf2 : ⌊(0 : ℚ)⌋ = 0 := by
    rw [Int.floor_eq_iff]
    norm_num
  simp only [hlat, hlng, hf1, hf2]

/-! ## Transfer engine claims -/

/-- C1: for collections `a` and `b` with distinct identity keys and a
token `t` present in `a` (collections hold no duplicate token, per the
data model's per-cache serial uniqueness), `transfer a b t` removes `t`
from `a`, appends `t` to the end of `b`'s collection — so afterwards `t`
is not in `a` and is in `b` — and stores both endpoints' post-transfer
mementos in the memento table. -/
theorem transfer_moves_token (a b : Cache) (t : Coin) (m : List (String × String))
    (hmem : t ∈ a.coins) (hcount : a.coins.count t ≤ 1) (hname : a.name ≠ b.name) :
    t ∉ (transfer a b t m).1.coins ∧
    (transfer a b t m).1.coins = a.coins.erase t ∧
    (transfer a b t m).2.1.coins = b.coins ++ [t] ∧
    t ∈ (transfer a b t m).2.1.coins ∧
    mget (transfer a b t m).2.2 a.name = some (toMomento (transfer a b t m).1) ∧
    mget (transfer a b t m).2.2 b.name = some (toMomento (transfer a b t m).2.1) := by
  have htr : transfer a b t m =
      ({ a with coins := a.coins.erase t }, { b with coins := b.coins ++ [t] },
        mset (mset m a.name (toMomento { a with coins := a.coins.erase t }))
          b.name (toMomento { b with coins := b.coins ++ [t] })) := by
    simp [transfer, hmem]
  rw [htr]
  refine ⟨?_, ?_, ?_, ?_, ?_, ?_⟩
  · show t ∉ a.coins.erase t
    have h0 : a.coins.count t ≠ 0 := by
      intro hc
      exact (List.count_eq_zero.mp hc) hmem
    have h1 : (a.coins.erase t).count t = a.coins.count t - 1 :=
      List.count_erase_self t a.coins
    have h2 : (a.coins.erase t).count t = 0 := by omega
    exact List.count_eq_zero.mp h2
  · exact rfl
  · exact rfl
  · show t ∈ b.coins ++ [t]
    simp
  · show mget (mset (mset m a.name (toMomento { a with coins := a.coins.erase t }))
        b.name (toMomento { b with coins := b.coins ++ [t] })) a.name =
      some (toMomento { a with coins := a.coins.erase t })
    rw [mget_mset_ne _ _ _ _ (Ne.symm hname), mget_mset_self]
  · show mget (mset (mset m a.name (toMomento { a with coins := a.coins.erase t }))
        b.name (toMomento { b with coins := b.coins ++ [t] })) b.name =
      some (toMomento { b with coins := b.coins ++ [t] })
    rw [mget_mset_self]

/-- Witness for C1: moving the only coin of cache (0,0) into the empty
inventory. -/
theorem transfer_moves_token_witness :
    (⟨⟨0, 0⟩, 0⟩ : Coin) ∉ (transfer (createCache 0 0 1) inventory0 ⟨⟨0, 0⟩, 0⟩ []).1.coins ∧
    (transfer (createCache 0 0 1) inventory0 ⟨⟨0, 0⟩, 0⟩ []).1.coins =
      (createCache 0 0 1).coins.erase ⟨⟨0, 0⟩, 0⟩ ∧
    (transfer (createCache 0 0 1) inventory0 ⟨⟨0, 0⟩, 0⟩ []).2.1.coins =
      inventory0.coins ++ [⟨⟨0, 0⟩, 0⟩] ∧
    (⟨⟨0, 0⟩, 0⟩ : Coin) ∈ (transfer (createCache 0 0 1) inventory0 ⟨⟨0, 0⟩, 0⟩ []).2.1.coins ∧
    mget (transfer (createCache 0 0 1) inventory0 ⟨⟨0, 0⟩, 0⟩ []).2.2 (createCache 0 0 1).name =
      some (toMomento (transfer (createCache 0 0 1) inventory0 ⟨⟨0, 0⟩, 0⟩ []).1) ∧
    mget (transfer (createCache 0 0 1) inventory0 ⟨⟨0, 0⟩, 0⟩ []).2.2 inventory0.name =
      some (toMomento (transfer (createCache 0 0 1) inventory0 ⟨⟨0, 0⟩, 0⟩ []).2.1) :=
  transfer_moves_token (createCache 0 0 1) inventory0 ⟨⟨0, 0⟩, 0⟩ []
    (by decide) (by decide) (by decide)

/-- C4: transferring a token that is not present in the source collection
is a silent no-op — source, destination and the memento table are all
returned unchanged. -/
theorem transfer_absent_noop (a b : Cache) (t : Coin) (m : List (String × String))
    (hmem : t ∉ a.coins) : transfer a b t m = (a, b, m) := by
  simp [transfer, hmem]

/-- Witness for C4: a coin from a foreign cell absent from the inventory. -/
theorem transfer_absent_noop_witness :
    transfer inventory0 (createCache 0 0 1) ⟨⟨5, 5⟩, 0⟩ [] =
      (inventory0, createCache 0 0 1, []) :=
  transfer_absent_noop inventory0 (createCache 0 0 1) ⟨⟨5, 5⟩, 0⟩ [] (by decide)

/-- C10: transfer conserves tokens — the combined multiset of both
collections' coins after `transfer a b t` equals the combined multiset
before, so no token is created, duplicated or destroyed, and the moved
token keeps its owning-cell and serial provenance (coins are compared as
whole values, provenance included). -/
theorem transfer_conserves (a b : Cache) (t : Coin) (m : List (String × String)) :
    Multiset.ofList ((transfer a b t m).1.coins ++ (transfer a b t m).2.1.coins) =
      Multiset.ofList (a.coins ++ b.coins) := by
  by_cases hmem : t ∈ a.coins
  · have htr : transfer a b t m =
        ({ a with coins := a.coins.erase t }, { b with coins := b.coins ++ [t] },
          mset (mset m a.name (toMomento { a with coins := a.coins.erase t }))
            b.name (toMomento { b with coins := b.coins ++ [t] })) := by
      simp [transfer, hmem]
    rw [htr]
    show Multiset.ofList (a.coins.erase t ++ (b.coins ++ [t])) =
      Multiset.ofList (a.coins ++ b.coins)
    apply Multiset.coe_eq_coe.mpr
    have h1 : List.Perm a.coins (t :: a.coins.erase t) := List.perm_cons_erase hmem
    have h2 : List.Perm (a.coins.erase t ++ (b.coins ++ [t]))
        (a.coins.erase t ++ ([t] ++ b.coins)) :=
      List.Perm.append_left _ List.perm_append_comm
    have h3 : a.coins.erase t ++ ([t] ++ b.coins) =
        (a.coins.erase t ++ [t]) ++ b.coins := by
      rw [List.append_assoc]
    have h4 : List.Perm ((a.coins.erase t ++ [t]) ++ b.coins)
        ((t :: a.coins.erase t) ++ b.coins) :=
      List.Perm.append_right _ (List.perm_append_singleton t _)
    have h5 : List.Perm ((t :: a.coins.erase t) ++ b.coins) (a.coins ++ b.coins) :=
      List.Perm.append_right _ h1.symm
    rw [h3] at h2
    exact (h2.trans h4).trans h5
  · simp [transfer, hmem]

/-! ## Memento round trip (C2) -/

/-- C2: serializing any cache's token collection with `toMomento` and
restoring through `fromMomento` succeeds and reconstructs a collection
equal — in particular as a multiset of (owning-cell i, owning-cell j,
serial) triples — to the one at save time, for any number of tokens,
independently of what fresh generation would produce for that cell (the
restore path never consults the generator). -/
theorem momento_roundtrip (c d : Cache) :
    ∃ d2, fromMomento d (toMomento c) = some d2 ∧
      d2.coins = c.coins ∧
      ((d2.coins.map coinId : List (Int × Int × Int)) : Multiset (Int × Int × Int)) =
        ((c.coins.map coinId : List (Int × Int × Int)) : Multiset (Int × Int × Int)) :=
  ⟨{ d with coins := c.coins }, fromMomento_toMomento c d, rfl, rfl⟩

/-! ## Cache generation (C3) -/

/-- C3: for a cell with no memento entry, the `showNearbyCaches` decision
generates a cache iff the `luck` draw at the cell's coordinate key is
strictly below `CACHE_SPAWN_PROBABILITY = 0.1`; a generated cache holds
exactly `⌊luck × 30⌋ + 1` tokens carrying serials `0..count-1` in order,
and the outcome depends only on the `luck` value at that key, so
regeneration for the same cell always yields the same count and serials. -/
theorem cache_generation_fresh (luck : String → ℚ) (m : List (String × String))
    (i j : Int) (hnomem : mget m (cellKey i j) = none)
    (h0 : 0 ≤ luck (cellKey i j)) :
    ((cacheAtCell luck m i j).isSome = true ↔
      luck (cellKey i j) < CACHE_SPAWN_PROBABILITY) ∧
    (∀ c : Cache, cacheAtCell luck m i j = some c →
      c.coins = (List.range (⌊luck (cellKey i j) * 30⌋ + 1).toNat).map
        (fun (k : Nat) => ⟨⟨i, j⟩, (k : Int)⟩) ∧
      (c.coins.length : Int) = ⌊luck (cellKey i j) * 30⌋ + 1 ∧
      ∀ idx : Nat, ∀ hidx : idx < c.coins.length,
        (c.coins.get ⟨idx, hidx⟩).serial = (idx : Int)) ∧
    (∀ luck2 : String → ℚ, luck2 (cellKey i j) = luck (cellKey i j) →
      cacheAtCell luck2 m i j = cacheAtCell luck m i j) := by
  have hfloor : 0 ≤ ⌊luck (cellKey i j) * 30⌋ := by
    apply Int.floor_nonneg.mpr
    positivity
  refine ⟨?_, ?_, ?_⟩
  · by_cases hlt : luck (cellKey i j) < CACHE_SPAWN_PROBABILITY
    · simp [cacheAtCell, hlt, hnomem]
    · simp [cacheAtCell, hlt]
  · intro c hc
    by_cases hlt : luck (cellKey i j) < CACHE_SPAWN_PROBABILITY
    · simp only [cacheAtCell, if_pos hlt, hnomem] at hc
      have hcc : c = createCache i j (⌊luck (cellKey i j) * 30⌋ + 1) :=
        (Option.some.inj hc).symm
      subst hcc
      have hcoins : (createCache i j (⌊luck (cellKey i j) * 30⌋ + 1)).coins =
          (List.range (⌊luck (cellKey i j) * 30⌋ + 1).toNat).map
            (fun (k : Nat) => ⟨⟨i, j⟩, (k : Int)⟩) := rfl
      refine ⟨hcoins, ?_, ?_⟩
      · rw [hcoins, List.length_map, List.length_range,
          Int.toNat_of_nonneg (by omega)]
      · intro idx hidx
        have hidx2 : idx < ((List.range (⌊luck (cellKey i j) * 30⌋ + 1).toNat).map
            (fun (k : Nat) => (⟨⟨i, j⟩, (k : Int)⟩ : Coin))).length := by
          rw [← hcoins]
          exact hidx
        rw [List.get_eq_getElem]
        have hg : (createCache i j (⌊luck (cellKey i j) * 30⌋ + 1)).coins[idx] =
            ((List.range (⌊luck (cellKey i j) * 30⌋ + 1).toNat).map
              (fun (k : Nat) => (⟨⟨i, j⟩, (k : Int)⟩ : Coin)))[idx] := by
          simp only [hcoins]
        rw [hg, List.getElem_map, List.getElem_range]
    · simp [cacheAtCell, hlt] at hc
  · intro luck2 heq
    simp [cacheAtCell, heq]

/-- Witness for C3 at the scenario generator and cell (0,0). -/
theorem cache_generation_fresh_witness :
    ((cacheAtCell luckScenario [] 0 0).isSome = true ↔
      luckScenario (cellKey 0 0) < CACHE_SPAWN_PROBABILITY) ∧
    (createCache 0 0 2).coins =
      (List.range (⌊luckScenario (cellKey 0 0) * 30⌋ + 1).toNat).map
        (fun (k : Nat) => ⟨⟨0, 0⟩, (k : Int)⟩) := by
  have h := cache_generation_fresh luckScenario [] 0 0 rfl
    (by norm_num [luckScenario])
  have h1 : luckScenario (cellKey 0 0) = 1 / 20 := by simp [luckScenario]
  have h2 : (1 / 20 : ℚ) < CACHE_SPAWN_PROBABILITY := by
    norm_num [CACHE_SPAWN_PROBABILITY]
  have h3 : (⌊(1 / 20 : ℚ) * 30⌋ + 1 : Int) = 2 := by
    have hm : ((1 : ℚ) / 20) * 30 = 3 / 2 := by norm_num
    rw [hm]
    have hf : ⌊(3 / 2 : ℚ)⌋ = 1 := by
      rw [Int.floor_eq_iff]
      norm_num
    rw [hf]
    norm_num
  have hc : cacheAtCell luckScenario [] 0 0 = some (createCache 0 0 2) := by
    simp only [cacheAtCell, h1, if_pos h2, mget]
    rw [h3]
  exact ⟨h.1, (h.2.1 (createCache 0 0 2) hc).1⟩

/-! ## Movement trail (C9) -/

/-- C9 counterexample: at a gap of exactly 20 — which does not exceed the
threshold `HISTORY_UPDATE_DISTANCE = 20` — the code starts a new polyline
instead of appending to the current one, so the claim's strict
"exceeds" boundary is wrong. -/
theorem history_boundary_cex :
    updateLocationHistory (fun _ _ => (20 : ℚ)) ⟨1, 1⟩ [[⟨0, 0⟩]] =
      [[⟨0, 0⟩], [⟨1, 1⟩]] ∧
    ¬((20 : ℚ) > HISTORY_UPDATE_DISTANCE) ∧
    updateLocationHistory (fun _ _ => (20 : ℚ)) ⟨1, 1⟩ [[⟨0, 0⟩]] ≠
      [[⟨0, 0⟩, ⟨1, 1⟩]] := by
  refine ⟨?_, ?_, ?_⟩
  · decide
  · norm_num [HISTORY_UPDATE_DISTANCE]
  · decide

/-- C9 (amended): when recording the position, a new polyline is started
exactly when the distance from the last recorded position is at least
(not strictly greater than) the threshold 20; a strictly smaller gap
appends to the current (last) polyline, and an empty trail gets a first
single-point polyline. -/
theorem history_update_amended (dist : latlng → latlng → ℚ) (o : latlng)
    (h : List (List latlng)) :
    (h = [] → updateLocationHistory dist o h = [[o]]) ∧
    (h ≠ [] →
      dist o ((h.getLastD []).getLastD ⟨0, 0⟩) < HISTORY_UPDATE_DISTANCE →
      updateLocationHistory dist o h = h.dropLast ++ [h.getLastD [] ++ [o]]) ∧
    (h ≠ [] →
      HISTORY_UPDATE_DISTANCE ≤ dist o ((h.getLastD []).getLastD ⟨0, 0⟩) →
      updateLocationHistory dist o h = h ++ [[o]]) := by
  refine ⟨?_, ?_, ?_⟩
  · intro he
    subst he
    simp [updateLocationHistory]
  · intro hne hlt
    have hlen : ¬(h.length = 0) := by
      simpa [List.length_eq_zero] using hne
    simp only [updateLocationHistory, if_neg hlen, if_pos hlt]
  · intro hne hge
    have hlen : ¬(h.length = 0) := by
      simpa [List.length_eq_zero] using hne
    simp only [updateLocationHistory, if_neg hlen, if_neg (not_lt.mpr hge)]

/-- Witness for C9 (amended) at the boundary gap of exactly 20. -/
theorem history_update_amended_witness :
    updateLocationHistory (fun _ _ => (20 : ℚ)) ⟨1, 1⟩ [[⟨0, 0⟩]] =
      [[⟨0, 0⟩]] ++ [[⟨1, 1⟩]] :=
  (history_update_amended (fun _ _ => (20 : ℚ)) ⟨1, 1⟩ [[⟨0, 0⟩]]).2.2
    (by decide) (by norm_num [HISTORY_UPDATE_DISTANCE])

/-! ## Session load (C6) -/

/-- C6 counterexample: with no `"data"` slot but a present `"loc"` slot,
`loadData` returns the session unchanged — the stored player position
`(1, 2)` is not restored, so the three pieces do not restore
independently. -/
theorem loadData_not_independent_cex :
    loadData { data := none, loc := some (1, 2), hist := some [[⟨3, 4⟩]] }
      freshSession = some freshSession ∧
    ({ data := none, loc := some (1, 2), hist := some [[⟨3, 4⟩]] } : Storage).loc =
      some (1, 2) ∧
    freshSession.origin ≠ (⟨1, 2⟩ : latlng) := by
  refine ⟨rfl, rfl, ?_⟩
  intro he
  have h1 : OAKES_CLASSROOM.lat = (1 : ℚ) := congrArg latlng.lat he
  norm_num [OAKES_CLASSROOM] at h1

/-- C6 (amended): when `"data"` is absent `loadData` returns immediately
and restores nothing, even pieces that are present; when `"data"` is
present, the `"loc"` and `"hist"` pieces are then restored independently
of each other, each falling back to its default (previous position,
previous trail) when absent. -/
theorem loadData_restore_amended :
    (∀ st : Storage, ∀ s : Session, st.data = none → loadData st s = some s) ∧
    (∀ st : Storage, ∀ s s4 : Session, loadData st s = some s4 →
      st.data.isSome = true →
      s4.origin = (st.loc.map (fun pq => (⟨pq.1, pq.2⟩ : latlng))).getD s.origin ∧
      s4.locHistory = s.locHistory ++ st.hist.getD []) := by
  constructor
  · intro st s h
    simp [loadData, h]
  · intro st s s4 hload hsome
    obtain ⟨d, hd⟩ := Option.isSome_iff_exists.mp hsome
    simp only [loadData, hd] at hload
    cases hinv : mget (d.foldl (fun m kv => mset m kv.1 kv.2) s.momentos)
        "inventory" with
    | none =>
      simp only [hinv] at hload
      cases hloc : st.loc with
      | none =>
        cases hhist : st.hist with
        | none =>
          simp only [hloc, hhist] at hload
          obtain rfl := Option.some.inj hload
          simp
        | some temp =>
          simp only [hloc, hhist] at hload
          obtain rfl := Option.some.inj hload
          simp
      | some pq =>
        cases hhist : st.hist with
        | none =>
          simp only [hloc, hhist] at hload
          obtain rfl := Option.some.inj hload
          simp
        | some temp =>
          simp only [hloc, hhist] at hload
          obtain rfl := Option.some.inj hload
          simp
    | some invStr =>
      simp only [hinv] at hload
      cases hfm : fromMomento s.inventory invStr with
      | none =>
        simp only [hfm] at hload
        cases hload
      | some inv2 =>
        simp only [hfm] at hload
        cases hloc : st.loc with
        | none =>
          cases hhist : st.hist with
          | none =>
            simp only [hloc, hhist] at hload
            cases hload
            simp
          | some temp =>
            simp only [hloc, hhist] at hload
            cases hload
            simp
        | some pq =>
          cases hhist : st.hist with
          | none =>
            simp only [hloc, hhist] at hload
            cases hload
            simp
          | some temp =>
            simp only [hloc, hhist] at hload
            cases hload
            simp

/-- Witness for C6 (amended): a storage with `"data"` present, `"loc"`
stored as `(1, 2)` and `"hist"` stored as one polyline — both pieces are
restored. -/
theorem loadData_restore_amended_witness :
    ∃ s4, loadData { data := some [], loc := some (1, 2), hist := some [[⟨3, 4⟩]] }
        freshSession = some s4 ∧
      s4.origin = (⟨1, 2⟩ : latlng) ∧ s4.locHistory = [[⟨3, 4⟩]] := by
  cases hE : loadData { data := some [], loc := some (1, 2), hist := some [[⟨3, 4⟩]] }
      freshSession with
  | none => cases hE
  | some s4 =>
    have h := loadData_restore_amended.2
      { data := some [], loc := some (1, 2), hist := some [[⟨3, 4⟩]] }
      freshSession s4 hE rfl
    refine ⟨s4, rfl, ?_, ?_⟩
    · rw [h.1]
      rfl
    · rw [h.2]
      rfl

/-! ## End-to-end scenario (C5) -/

/-- C5: with `luck("0,0") = 0.05` and threshold 0.1, cell (0,0) spawns a
cache with `⌊0.05 × 30⌋ + 1 = 2` tokens (serials 0 and 1); after
transferring the serial-0 token to the inventory and simulating a session
save followed by a load into a fresh session, the restored inventory
holds exactly serial 0 and the cache regenerated from its memento at
(0,0) holds exactly serial 1. -/
theorem end_to_end_scenario :
    luckScenario (cellKey 0 0) = 1 / 20 ∧
    luckScenario (cellKey 0 0) < CACHE_SPAWN_PROBABILITY ∧
    (⌊luckScenario (cellKey 0 0) * 30⌋ + 1 : Int) = 2 ∧
    cacheAtCell luckScenario [] 0 0 = some (createCache 0 0 2) ∧
    (createCache 0 0 2).coins = [⟨⟨0, 0⟩, 0⟩, ⟨⟨0, 0⟩, 1⟩] ∧
    (loadData (saveData scenarioSession) freshSession).map
      (fun s2 => s2.inventory.coins) = some [⟨⟨0, 0⟩, 0⟩] ∧
    ((loadData (saveData scenarioSession) freshSession).bind
      (fun s2 => cacheAtCell luckScenario s2.momentos 0 0)).map
        (fun c2 => c2.coins) = some [⟨⟨0, 0⟩, 1⟩] := by
  have h1 : luckScenario (cellKey 0 0) = 1 / 20 := by simp [luckScenario]
  have h2 : (1 / 20 : ℚ) < CACHE_SPAWN_PROBABILITY := by
    norm_num [CACHE_SPAWN_PROBABILITY]
  have h3 : (⌊(1 / 20 : ℚ) * 30⌋ + 1 : Int) = 2 := by
    have hm : ((1 : ℚ) / 20) * 30 = 3 / 2 := by norm_num
    rw [hm]
    have hf : ⌊(3 / 2 : ℚ)⌋ = 1 := by
      rw [Int.floor_eq_iff]
      norm_num
    rw [hf]
    norm_num
  have h4 : cacheAtCell luckScenario [] 0 0 = some (createCache 0 0 2) := by
    simp only [cacheAtCell, h1, if_pos h2, mget]
    rw [h3]
  have h6 : (loadData (saveData scenarioSession) freshSession).map
      (fun s2 => s2.inventory.coins) = some [⟨⟨0, 0⟩, 0⟩] := by decide
  have hmom : (loadData (saveData scenarioSession) freshSession).map
      (fun s2 => mget s2.momentos (cellKey 0 0)) =
      some (some "[\x7b\"cell\":\x7b\"i\":0,\"j\":0\x7d,\"serial\":1\x7d]") := by
    decide
  refine ⟨h1, by rw [h1]; exact h2, by rw [h1]; exact h3, h4, by decide, h6, ?_⟩
  cases hE : loadData (saveData scenarioSession) freshSession with
  | none =>
    rw [hE] at h6
    cases h6
  | some s2 =>
    rw [hE] at hmom
    have hm2 : mget s2.momentos (cellKey 0 0) =
        some "[\x7b\"cell\":\x7b\"i\":0,\"j\":0\x7d,\"serial\":1\x7d]" :=
      Option.some.inj hmom
    have hcc : cacheAtCell luckScenario s2.momentos 0 0 =
        fromMomento (createCache 0 0 0)
          "[\x7b\"cell\":\x7b\"i\":0,\"j\":0\x7d,\"serial\":1\x7d]" := by
      simp only [cacheAtCell, h1, if_pos h2, hm2]
    have hfm : fromMomento (createCache 0 0 0)
        "[\x7b\"cell\":\x7b\"i\":0,\"j\":0\x7d,\"serial\":1\x7d]" =
        some { cell := ⟨0, 0⟩, coins := [⟨⟨0, 0⟩, 1⟩], name := cellKey 0 0 } := by
      decide
    show (cacheAtCell luckScenario s2.momentos 0 0).map (fun c2 => c2.coins) =
      some [⟨⟨0, 0⟩, 1⟩]
    rw [hcc, hfm]
    rfl

end Demo3
